import Mathlib

/-!
Verification development for the BAG2 serdes/analog template repository.

We shallowly embed the arithmetic and control logic of
`abs_templates_ec/serdes/tx_cml.py`, `layout_scripts/serdes.py` and
`test_scripts/analogbase.py`.  Framework quantities (grid resolution,
source/drain pitch, `AnalogBaseInfo.get_total_width`, track indices of
ports, EM-spec derived track widths) are parameters of the embedded
functions, since their values are produced by the host framework.
Python floats are modelled as rationals, Python ints as integers;
Python `//` and `%` are floor division `Int.fdiv` and `Int.fmod`.
-/

/-- Python 3 `round` to an integer (round-half-to-even), on rationals. -/
def pyRound (q : ℚ) : ℤ :=
  let f := ⌊q⌋
  let r := q - (f : ℚ)
  if r < 1/2 then f
  else if 1/2 < r then f + 1
  else if f % 2 = 0 then f else f + 1

/-- `round` of an integer value is that integer. -/
theorem pyRound_intCast (n : ℤ) : pyRound (n : ℚ) = n := by
  simp [pyRound]

/-- The descending finger-count search loop of
`CMLCorePMOS._draw_layout_helper` (tx_cml.py lines 342-346):
starting from `fg`, decrement until `get_total_width fg ≤ numPitch`.
`gtw` is `layout_info.get_total_width (·, guard_ring_nf)`.
The Python loop has no built-in bound, so we run it on explicit fuel;
`none` means the loop did not exit within `fuel` iterations. -/
def fgSearch (gtw : ℤ → ℤ) (numPitch : ℤ) : ℕ → ℤ → Option ℤ
  | 0, _ => none
  | fuel + 1, fg => if gtw fg ≤ numPitch then some fg else fgSearch gtw numPitch fuel (fg - 1)

/-- The two `ValueError`s of `CMLCorePMOS._draw_layout_helper`. -/
inductive DrawError
  | notMultiple    -- "total width ... not multiple of source/drain pitch."
  | cannotAchieve  -- "Cannot achieve a total width of ..."
  deriving DecidableEq, Repr

/-- The finger-count solving prefix of `CMLCorePMOS._draw_layout_helper`
(tx_cml.py lines 333-349): convert `tot_width` to resolution units,
check divisibility by the source/drain pitch, run the descending
search, and check the achieved width.  Returns the solved `fg_tot`, a
raised `ValueError`, or `none` when the while loop runs past `fuel`. -/
def drawLayoutFg (totWidth res : ℚ) (sdPitch : ℤ) (gtw : ℤ → ℤ) (fuel : ℕ) :
    Option (Except DrawError ℤ) :=
  let totWidthUnit := pyRound (totWidth / res)
  if totWidthUnit.fmod sdPitch ≠ 0 then some (.error .notMultiple)
  else
    let numPitch := totWidthUnit.fdiv sdPitch
    (fgSearch gtw numPitch fuel numPitch).map fun fg =>
      if gtw fg ≠ numPitch then .error .cannotAchieve else .ok fg

example : pyRound (7/2) = 4 := by
  have h : ⌊(7/2 : ℚ)⌋ = 3 := by rw [Int.floor_eq_iff]; norm_num
  rw [pyRound]; rw [h]; norm_num

example : pyRound (5/2) = 2 := by
  have h : ⌊(5/2 : ℚ)⌋ = 2 := by rw [Int.floor_eq_iff]; norm_num
  rw [pyRound]; rw [h]; norm_num

/-- Evaluation helper: `drawLayoutFg` at an integer `totWidth` with `res = 1`. -/
theorem drawLayoutFg_intCast (n : ℤ) (sdPitch : ℤ) (gtw : ℤ → ℤ) (fuel : ℕ) :
    drawLayoutFg (n : ℚ) 1 sdPitch gtw fuel =
      (if n.fmod sdPitch ≠ 0 then some (.error .notMultiple)
       else
        (fgSearch gtw (n.fdiv sdPitch) fuel (n.fdiv sdPitch)).map fun fg =>
          if gtw fg ≠ n.fdiv sdPitch then .error .cannotAchieve else .ok fg) := by
  rw [drawLayoutFg]
  norm_num [pyRound_intCast]

example : drawLayoutFg 4 1 2 id 3 = some (.ok 2) := by
  have h := drawLayoutFg_intCast 4 2 id 3
  norm_num at h
  rw [h]; rfl

example : drawLayoutFg 3 1 2 id 3 = some (.error .notMultiple) := by
  have h := drawLayoutFg_intCast 3 2 id 3
  norm_num at h
  rw [h]; rfl

/-- Soundness of the descending search: a returned `fg` is at most the
starting value, achieves width at most `numPitch`, and every finger
count strictly between `fg` and the start exceeds `numPitch`. -/
theorem fgSearch_some {gtw : ℤ → ℤ} {np : ℤ} {fuel : ℕ} {start fg : ℤ}
    (h : fgSearch gtw np fuel start = some fg) :
    fg ≤ start ∧ gtw fg ≤ np ∧ ∀ m, fg < m → m ≤ start → np < gtw m := by
  induction fuel generalizing start with
  | zero => simp [fgSearch] at h
  | succ fuel ih =>
    rw [fgSearch] at h
    by_cases hc : gtw start ≤ np
    · rw [if_pos hc] at h
      obtain rfl := Option.some.inj h
      exact ⟨le_refl _, hc, fun m h1 h2 => absurd (h1.trans_le h2) (lt_irrefl _)⟩
    · rw [if_neg hc] at h
      obtain ⟨h1, h2, h3⟩ := ih h
      refine ⟨by omega, h2, fun m hm1 hm2 => ?_⟩
      rcases lt_or_eq_of_le hm2 with hm3 | rfl
      · exact h3 m hm1 (by omega)
      · exact lt_of_not_le hc

/-- Termination of the descending search: if the width at `start - k`
is within budget then the loop with fuel `k + 1` exits, at or above
`start - k`. -/
theorem fgSearch_term {gtw : ℤ → ℤ} {np : ℤ} (k : ℕ) :
    ∀ (start : ℤ), gtw (start - (k : ℤ)) ≤ np →
      ∃ fg, fgSearch gtw np (k + 1) start = some fg ∧ start - (k : ℤ) ≤ fg ∧ fg ≤ start := by
  induction k with
  | zero =>
    intro start h
    rw [Int.natCast_zero, sub_zero] at h
    exact ⟨start, by rw [fgSearch, if_pos h], by omega, le_refl _⟩
  | succ k ih =>
    intro start h
    by_cases hc : gtw start ≤ np
    · exact ⟨start, by rw [fgSearch, if_pos hc], by omega, le_refl _⟩
    · have h' : gtw (start - 1 - (k : ℤ)) ≤ np := by
        have he : start - 1 - (k : ℤ) = start - ((k : ℤ) + 1) := by ring
        rw [he]
        have he2 : ((k + 1 : ℕ) : ℤ) = (k : ℤ) + 1 := by push_cast; ring
        rw [he2] at h
        exact h
      obtain ⟨fg, hfg, h1, h2⟩ := ih (start - 1) h'
      refine ⟨fg, by rw [fgSearch, if_neg hc]; exact hfg, by push_cast; omega, by omega⟩

/-- C1: `CMLCorePMOS._draw_layout_helper` raises `ValueError` iff the
total width in resolution units is not a multiple of the source/drain
pitch, or the descending search exits at a finger count whose total
width is strictly below `num_pitch`. -/
theorem cmlCore_valueError_iff (totWidth res : ℚ) (sdPitch : ℤ) (gtw : ℤ → ℤ)
    (fuel : ℕ) (r : Except DrawError ℤ) (hp : 0 < sdPitch)
    (hr : drawLayoutFg totWidth res sdPitch gtw fuel = some r) :
    (∃ e, r = .error e) ↔
      (¬ (sdPitch ∣ pyRound (totWidth / res)) ∨
        ∃ fg, fgSearch gtw ((pyRound (totWidth / res)).fdiv sdPitch) fuel
                ((pyRound (totWidth / res)).fdiv sdPitch) = some fg ∧
              gtw fg < (pyRound (totWidth / res)).fdiv sdPitch) := by
  rw [drawLayoutFg] at hr
  have hmod : (pyRound (totWidth / res)).fmod sdPitch = 0 ↔
      sdPitch ∣ pyRound (totWidth / res) := by
    rw [Int.fmod_eq_emod _ (le_of_lt hp)]
    exact (Int.dvd_iff_emod_eq_zero).symm
  by_cases hm : (pyRound (totWidth / res)).fmod sdPitch ≠ 0
  · rw [if_pos hm] at hr
    obtain rfl := Option.some.inj hr
    constructor
    · intro _
      exact Or.inl (fun hd => hm (hmod.mpr hd))
    · intro _
      exact ⟨.notMultiple, rfl⟩
  · rw [if_neg hm] at hr
    push_neg at hm
    rw [Option.map_eq_some'] at hr
    obtain ⟨fg, hs, hfg⟩ := hr
    obtain ⟨-, hle, -⟩ := fgSearch_some hs
    by_cases hne : gtw fg ≠ (pyRound (totWidth / res)).fdiv sdPitch
    · rw [if_pos hne] at hfg
      obtain rfl := hfg.symm
      constructor
      · intro _
        exact Or.inr ⟨fg, hs, lt_of_le_of_ne hle hne⟩
      · intro _
        exact ⟨.cannotAchieve, rfl⟩
    · rw [if_neg hne] at hfg
      obtain rfl := hfg.symm
      push_neg at hne
      constructor
      · rintro ⟨e, he⟩
        exact absurd he (by simp)
      · rintro (h | ⟨fg', hfg', hlt⟩)
        · exact absurd (hmod.mp hm) h
        · rw [hs] at hfg'
          obtain rfl := Option.some.inj hfg'
          exact absurd hlt (by omega)

/-- Witness for C1: `tot_width = 4`, `res = 1`, `sd_pitch = 2`,
identity total-width function; the helper succeeds with `fg_tot = 2`
and no error condition holds. -/
theorem cmlCore_valueError_iff_witness :
    ((∃ e, (Except.ok (2:ℤ) : Except DrawError ℤ) = .error e) ↔
      (¬ ((2:ℤ) ∣ pyRound ((4:ℚ) / 1)) ∨
        ∃ fg, fgSearch id ((pyRound ((4:ℚ) / 1)).fdiv 2) 3
                ((pyRound ((4:ℚ) / 1)).fdiv 2) = some fg ∧
              id fg < (pyRound ((4:ℚ) / 1)).fdiv 2)) := by
  apply cmlCore_valueError_iff 4 1 2 id 3 (.ok 2) (by norm_num)
  have h := drawLayoutFg_intCast 4 2 id 3
  norm_num at h
  rw [h]; rfl

/-- C2: assuming `get_total_width` is monotone non-decreasing, when
the helper succeeds the solved finger count is the largest integer not
exceeding `num_pitch` whose total width equals `num_pitch`. -/
theorem cmlCore_fg_largest (totWidth res : ℚ) (sdPitch : ℤ) (gtw : ℤ → ℤ)
    (fuel : ℕ) (fg : ℤ) (_hmono : Monotone gtw)
    (hr : drawLayoutFg totWidth res sdPitch gtw fuel = some (.ok fg)) :
    fg ≤ (pyRound (totWidth / res)).fdiv sdPitch ∧
    gtw fg = (pyRound (totWidth / res)).fdiv sdPitch ∧
    ∀ m, m ≤ (pyRound (totWidth / res)).fdiv sdPitch →
      gtw m = (pyRound (totWidth / res)).fdiv sdPitch → m ≤ fg := by
  rw [drawLayoutFg] at hr
  by_cases hm : (pyRound (totWidth / res)).fmod sdPitch ≠ 0
  · rw [if_pos hm] at hr
    exact absurd (Option.some.inj hr) (by simp)
  · rw [if_neg hm] at hr
    rw [Option.map_eq_some'] at hr
    obtain ⟨fg', hs, hfg⟩ := hr
    by_cases hne : gtw fg' ≠ (pyRound (totWidth / res)).fdiv sdPitch
    · rw [if_pos hne] at hfg
      exact absurd hfg (by simp)
    · rw [if_neg hne] at hfg
      push_neg at hne
      obtain rfl := Except.ok.inj hfg
      obtain ⟨h1, h2, h3⟩ := fgSearch_some hs
      refine ⟨h1, hne, fun m hm1 hm2 => ?_⟩
      by_contra hlt
      push_neg at hlt
      exact absurd hm2 (ne_of_gt (h3 m hlt hm1))

/-- Witness for C2 at `tot_width = 4`, `res = 1`, `sd_pitch = 2`,
identity total-width function, `fg_tot = 2`. -/
theorem cmlCore_fg_largest_witness :
    (2:ℤ) ≤ (pyRound ((4:ℚ) / 1)).fdiv 2 ∧
    id (2:ℤ) = (pyRound ((4:ℚ) / 1)).fdiv 2 ∧
    ∀ m, m ≤ (pyRound ((4:ℚ) / 1)).fdiv 2 →
      id m = (pyRound ((4:ℚ) / 1)).fdiv 2 → m ≤ 2 := by
  apply cmlCore_fg_largest 4 1 2 id 3 2 monotone_id
  have h := drawLayoutFg_intCast 4 2 id 3
  norm_num at h
  rw [h]; rfl

/-- C3: the descending finger-count search terminates exactly when
some `m ≤ num_pitch` has `get_total_width m ≤ num_pitch`; when such an
`m` exists the loop exits at or before reaching `m`. -/
theorem cmlCore_search_termination (gtw : ℤ → ℤ) (np : ℤ) :
    (∀ m : ℤ, m ≤ np → gtw m ≤ np →
        ∃ fg, fgSearch gtw np ((np - m).toNat + 1) np = some fg ∧ m ≤ fg ∧ fg ≤ np) ∧
    ((∃ fuel fg, fgSearch gtw np fuel np = some fg) → ∃ m, m ≤ np ∧ gtw m ≤ np) := by
  constructor
  · intro m hm hw
    have hk : np - (((np - m).toNat : ℕ) : ℤ) = m := by omega
    have hw' : gtw (np - (((np - m).toNat : ℕ) : ℤ)) ≤ np := by rw [hk]; exact hw
    obtain ⟨fg, hfg, h1, h2⟩ := fgSearch_term (np - m).toNat np hw'
    exact ⟨fg, hfg, by omega, h2⟩
  · rintro ⟨fuel, fg, hfg⟩
    obtain ⟨h1, h2, -⟩ := fgSearch_some hfg
    exact ⟨fg, h1, h2⟩

/-- Witness for C3 at the identity total-width function, `num_pitch = 3`,
`m = 3`. -/
theorem cmlCore_search_termination_witness :
    ∃ fg, fgSearch id 3 (((3:ℤ) - 3).toNat + 1) 3 = some fg ∧ (3:ℤ) ≤ fg ∧ fg ≤ 3 :=
  (cmlCore_search_termination id 3).1 3 (le_refl _) (by decide)

/-- A Python dict with rational values, modelled as an association
list; `dictLookup` returns the first binding. -/
abbrev PyDict : Type := List (String × ℚ)

/-- Dictionary lookup (`d[k]` / `k in d`). -/
def dictLookup (d : PyDict) (k : String) : Option ℚ :=
  match d with
  | [] => none
  | p :: rest => if p.1 = k then some p.2 else dictLookup rest k

/-- The in-place update `if key in d: d[key] *= c` of
`CMLCorePMOS._draw_layout_helper` (tx_cml.py lines 362-364), acting on
a fresh list; absent keys leave the dict unchanged. -/
def scaleKey (d : PyDict) (k : String) (c : ℚ) : PyDict :=
  List.map (fun p => if p.1 = k then (p.1, p.2 * c) else p) d

/-- tx_cml.py lines 359-364: `cur_ratio = fg / fg_ref`,
`num_seg = len(output_tracks)`, `ref_em_specs = em_specs.copy()`
(the copy is the new list built by `scaleKey`; the argument itself is
not written to), then each of the three current keys present is
multiplied by `num_seg / cur_ratio`. -/
def refEmSpecs (emSpecs : PyDict) (numSeg : ℕ) (fg fgRef : ℚ) : PyDict :=
  let curRatio := fg / fgRef
  List.foldl (fun d k => scaleKey d k ((numSeg : ℚ) / curRatio)) emSpecs
    ["idc", "iac_rms", "iac_peak"]

/-- Scaling one key does not change the binding of any other key. -/
theorem scaleKey_lookup_ne (d : PyDict) (k k' : String) (c : ℚ) (h : k' ≠ k) :
    dictLookup (scaleKey d k c) k' = dictLookup d k' := by
  induction d with
  | nil => rfl
  | cons p rest ih =>
    by_cases hp : p.1 = k
    · rw [scaleKey, List.map_cons, if_pos hp, dictLookup, dictLookup]
      rw [if_neg (hp ▸ fun hk => h hk.symm), if_neg (fun hk => h (hp ▸ hk).symm)]
      exact ih
    · rw [scaleKey, List.map_cons, if_neg hp, dictLookup, dictLookup]
      by_cases hk : p.1 = k'
      · rw [if_pos hk, if_pos hk]
      · rw [if_neg hk, if_neg hk]
        exact ih

/-- Scaling one key multiplies exactly that key's binding. -/
theorem scaleKey_lookup_eq (d : PyDict) (k : String) (c : ℚ) :
    dictLookup (scaleKey d k c) k = Option.map (fun v => v * c) (dictLookup d k) := by
  induction d with
  | nil => rfl
  | cons p rest ih =>
    by_cases hp : p.1 = k
    · rw [scaleKey, List.map_cons, if_pos hp, dictLookup, dictLookup]
      rw [if_pos hp, if_pos hp]
      rfl
    · rw [scaleKey, List.map_cons, if_neg hp, dictLookup, dictLookup]
      rw [if_neg hp, if_neg hp]
      exact ih

/-- C4: the reference EM spec dict agrees with the input on every key
other than the three current keys; each current key present is scaled
by `num_seg / cur_ratio`, which equals `len(output_tracks) * fg_ref / fg`;
the scaled dict is a fresh list (`refEmSpecs` reads but never writes
its argument, mirroring `em_specs.copy()`). -/
theorem cmlCore_refEmSpecs_spec (emSpecs : PyDict) (numSeg : ℕ) (fg fgRef : ℚ) :
    (∀ k, k ≠ "idc" → k ≠ "iac_rms" → k ≠ "iac_peak" →
        dictLookup (refEmSpecs emSpecs numSeg fg fgRef) k = dictLookup emSpecs k) ∧
    (∀ k, k = "idc" ∨ k = "iac_rms" ∨ k = "iac_peak" →
        dictLookup (refEmSpecs emSpecs numSeg fg fgRef) k =
          Option.map (fun v => v * ((numSeg : ℚ) * fgRef / fg)) (dictLookup emSpecs k)) ∧
    (numSeg : ℚ) / (fg / fgRef) = (numSeg : ℚ) * fgRef / fg := by
  have hfac : (numSeg : ℚ) / (fg / fgRef) = (numSeg : ℚ) * fgRef / fg :=
    div_div_eq_mul_div _ _ _
  refine ⟨?_, ?_, hfac⟩
  · intro k h1 h2 h3
    rw [refEmSpecs]
    simp only [List.foldl_cons, List.foldl_nil]
    rw [scaleKey_lookup_ne _ _ _ _ h3, scaleKey_lookup_ne _ _ _ _ h2,
      scaleKey_lookup_ne _ _ _ _ h1]
  · intro k hk
    rw [refEmSpecs]
    simp only [List.foldl_cons, List.foldl_nil]
    rcases hk with rfl | rfl | rfl
    · rw [scaleKey_lookup_ne _ _ _ _ (by decide), scaleKey_lookup_ne _ _ _ _ (by decide),
        scaleKey_lookup_eq, hfac]
    · rw [scaleKey_lookup_ne _ _ _ _ (by decide), scaleKey_lookup_eq,
        scaleKey_lookup_ne _ _ _ _ (by decide), hfac]
    · rw [scaleKey_lookup_eq, scaleKey_lookup_ne _ _ _ _ (by decide),
        scaleKey_lookup_ne _ _ _ _ (by decide), hfac]

/-- Witness for C4 at `em_specs = {idc: 2, w1: 3}`, `num_seg = 2`,
`fg = 4`, `fg_ref = 1`: the non-current key keeps its binding and
`idc` is scaled. -/
theorem cmlCore_refEmSpecs_witness :
    dictLookup (refEmSpecs [("idc", 2), ("w1", 3)] 2 4 1) "w1" =
      dictLookup [("idc", 2), ("w1", 3)] "w1" ∧
    dictLookup (refEmSpecs [("idc", 2), ("w1", 3)] 2 4 1) "idc" =
      Option.map (fun v => v * (((2:ℕ) : ℚ) * 1 / 4)) (dictLookup [("idc", 2), ("w1", 3)] "idc") :=
  ⟨(cmlCore_refEmSpecs_spec [("idc", 2), ("w1", 3)] 2 4 1).1 "w1"
      (by decide) (by decide) (by decide),
   (cmlCore_refEmSpecs_spec [("idc", 2), ("w1", 3)] 2 4 1).2.1 "idc" (Or.inl rfl)⟩

/-- The `draw_array` shape in `LoadResistor.draw_layout`
(tx_cml.py line 128): `nx + 2*ndum` columns, one row. -/
def loadResistorArrayShape (nx ndum : ℕ) : ℕ × ℕ := (nx + 2 * ndum, 1)

/-- What `LoadResistor.draw_layout` attaches to one resistor column:
either the shared `dummy` pin, or the exported pin pair
`bot<i>` / `top<i>`. -/
inductive ResPin
  | dummy
  | signal (i : ℕ)
  deriving DecidableEq, Repr

/-- The exported index of a pin, `none` for a dummy. -/
def ResPin.signalIdx : ResPin → Option ℕ
  | .dummy => none
  | .signal i => some i

/-- tx_cml.py lines 135-139: column `idx` is a dummy when
`idx < ndum or idx >= nx + ndum`, and otherwise exports the pair
with index `idx - ndum`. -/
def loadResistorPin (nx ndum idx : ℕ) : ResPin :=
  if idx < ndum ∨ nx + ndum ≤ idx then .dummy else .signal (idx - ndum)

/-- The exported bot/top indices over all drawn columns, in column order. -/
def exportedIndices (nx ndum : ℕ) : List ℕ :=
  (List.range (loadResistorArrayShape nx ndum).1).filterMap
    (fun idx => (loadResistorPin nx ndum idx).signalIdx)

example : exportedIndices 3 2 = [0, 1, 2] := by decide
example : loadResistorPin 3 2 1 = .dummy := by decide
example : loadResistorPin 3 2 6 = .dummy := by decide
example : loadResistorPin 3 2 4 = .signal 2 := by decide

/-- A shifted column `ndum + j` is a dummy exactly when `j` is past the
`nx` exported columns. -/
theorem loadResistorPin_shift (nx ndum j : ℕ) :
    (loadResistorPin nx ndum (ndum + j)).signalIdx =
      if nx ≤ j then none else some j := by
  rw [loadResistorPin]
  by_cases h : nx ≤ j
  · rw [if_pos (Or.inr (by omega)), if_pos h]
    rfl
  · rw [if_neg (by omega), if_neg h, ResPin.signalIdx]
    congr 1
    omega

/-- Filtering `range m` through the guard `j < n` yields `range (min n m)`. -/
theorem filterMap_range_guard (n m : ℕ) :
    (List.range m).filterMap (fun j => if n ≤ j then none else some j) =
      List.range (min n m) := by
  induction m with
  | zero => rw [Nat.min_zero]; rfl
  | succ m ih =>
    rw [List.range_succ, List.filterMap_append, ih]
    by_cases h : n ≤ m
    · rw [List.filterMap_cons]
      rw [if_pos h]
      rw [List.filterMap_nil, List.append_nil]
      congr 1
      omega
    · rw [List.filterMap_cons]
      rw [if_neg h]
      rw [List.filterMap_nil]
      have h1 : min n m = m := by omega
      have h2 : min n (m + 1) = m + 1 := by omega
      rw [h1, h2, List.range_succ]

/-- C5: the drawn resistor array has `nx + 2*ndum` columns in one row;
a column is pinned `dummy` iff it is among the first or last `ndum`
columns; the remaining columns export `bot<i>`/`top<i>` with the
indices `0 .. nx-1` appearing exactly once each, in order. -/
theorem loadResistor_pins (nx ndum : ℕ) (_hnx : 1 ≤ nx) :
    loadResistorArrayShape nx ndum = (nx + 2 * ndum, 1) ∧
    (∀ idx, loadResistorPin nx ndum idx = .dummy ↔ (idx < ndum ∨ nx + ndum ≤ idx)) ∧
    exportedIndices nx ndum = List.range nx := by
  refine ⟨rfl, ?_, ?_⟩
  · intro idx
    rw [loadResistorPin]
    by_cases h : idx < ndum ∨ nx + ndum ≤ idx
    · rw [if_pos h]
      exact ⟨fun _ => h, fun _ => rfl⟩
    · rw [if_neg h]
      exact ⟨fun hc => ResPin.noConfusion hc, fun hc => absurd hc h⟩
  · rw [exportedIndices]
    have hshape : (loadResistorArrayShape nx ndum).1 = ndum + (nx + ndum) := by
      show nx + 2 * ndum = ndum + (nx + ndum)
      omega
    rw [hshape, List.range_add, List.filterMap_append]
    have hpre : (List.range ndum).filterMap
        (fun idx => (loadResistorPin nx ndum idx).signalIdx) = [] := by
      rw [List.filterMap_eq_nil_iff]
      intro a ha
      rw [List.mem_range] at ha
      rw [loadResistorPin, if_pos (Or.inl ha)]
      rfl
    rw [hpre, List.nil_append, List.filterMap_map]
    have hfun : ((fun idx => (loadResistorPin nx ndum idx).signalIdx) ∘ (ndum + ·)) =
        fun j => if nx ≤ j then none else some j := by
      funext j
      exact loadResistorPin_shift nx ndum j
    rw [hfun, filterMap_range_guard]
    congr 1
    omega

/-- Witness for C5 at `nx = 3`, `ndum = 2`: seven columns, the two on
each end dummies, exported indices `[0, 1, 2]`. -/
theorem loadResistor_pins_witness :
    1 ≤ 3 ∧ (loadResistorArrayShape 3 2 = (3 + 2 * 2, 1) ∧
      (∀ idx, loadResistorPin 3 2 idx = .dummy ↔ (idx < 2 ∨ 3 + 2 ≤ idx)) ∧
      exportedIndices 3 2 = List.range 3) :=
  ⟨by decide, loadResistor_pins 3 2 (by decide)⟩

/-- The mutable state of a `CMLLoadSingle` instance relevant to its
`output_tracks` property. -/
structure CMLLoadSingleState where
  outputTracks : Option (List ℚ)

/-- `CMLLoadSingle.__init__` (tx_cml.py lines 160-164): the backing
field `_output_tracks` starts as `None`, so the property returns
`None` before `draw_layout` runs. -/
def cmlLoadInit : CMLLoadSingleState := { outputTracks := none }

/-- The export loop of `CMLLoadSingle._draw_layout_helper`
(tx_cml.py lines 239-245): `_output_tracks` is set to `[]`, then for
`idx in range(res_params['nx'])` the base track index of the resistor
instance's `top<idx>` port is appended.  `topBase idx` abstracts
`res_inst.get_all_port_pins('top<idx>')[0].track_id.base_index`. -/
def cmlLoadDrawLayout (nx : ℕ) (topBase : ℕ → ℚ) (s : CMLLoadSingleState) :
    CMLLoadSingleState :=
  { s with
    outputTracks := some ((List.range nx).foldl (fun acc idx => acc ++ [topBase idx]) []) }

/-- Folding append-singleton over a list builds `acc ++ map`. -/
theorem foldl_append_singleton (f : ℕ → ℚ) (l : List ℕ) (acc : List ℚ) :
    l.foldl (fun acc idx => acc ++ [f idx]) acc = acc ++ l.map f := by
  induction l generalizing acc with
  | nil => simp
  | cons a l ih => simp [ih]

/-- C6: before `draw_layout` the property is `None`; after it, it holds
a list of length `nx` whose `i`-th element is the base index of the
`top<i>` port. -/
theorem cmlLoadSingle_outputTracks (nx : ℕ) (topBase : ℕ → ℚ) (s : CMLLoadSingleState) :
    cmlLoadInit.outputTracks = none ∧
    ∃ l, (cmlLoadDrawLayout nx topBase s).outputTracks = some l ∧
      l.length = nx ∧ ∀ i, i < nx → l[i]? = some (topBase i) := by
  refine ⟨rfl, (List.range nx).map topBase, ?_, by simp, ?_⟩
  · rw [cmlLoadDrawLayout, foldl_append_singleton, List.nil_append]
  · intro i hi
    rw [List.getElem?_map, List.getElem?_range hi]
    rfl

/-- Witness for C6 at `nx = 2`, `topBase i = i`. -/
theorem cmlLoadSingle_outputTracks_witness :
    ∃ l, (cmlLoadDrawLayout 2 (fun i => (i : ℚ)) cmlLoadInit).outputTracks = some l ∧
      l.length = 2 ∧ l[1]? = some ((1 : ℕ) : ℚ) := by
  obtain ⟨-, l, h1, h2, h3⟩ := cmlLoadSingle_outputTracks 2 (fun i => (i : ℚ)) cmlLoadInit
  exact ⟨l, h1, h2, h3 1 (by decide)⟩

/-- The fields a `CMLDriverPMOS` instance ever assigns:
`_tot_width` and `_output_tracks` (both set in `__init__` only), plus
the geometry assigned at the end of `_draw_layout_helper`
(`array_box`, `size`), abstracted here. -/
structure CMLDriverPMOSState where
  totWidth : Option ℚ
  outputTracks : Option (List ℚ)
  arrayBox : Option (ℚ × ℚ)
  size : Option (ℕ × ℕ × ℕ)

/-- `CMLDriverPMOS.__init__` (tx_cml.py lines 461-465): both backing
fields start as `None`. -/
def cmlDriverInit : CMLDriverPMOSState :=
  { totWidth := none, outputTracks := none, arrayBox := none, size := none }

/-- `CMLDriverPMOS._draw_layout_helper` (tx_cml.py lines 521-563):
builds the load and core masters, places the three instances, then
assigns `self.array_box` and `self.set_size_from_array_box(...)`;
it never assigns `_output_tracks` (or `_tot_width`).  The geometry
values are abstract parameters. -/
def cmlDriverDrawLayout (box : ℚ × ℚ) (sz : ℕ × ℕ × ℕ) (s : CMLDriverPMOSState) :
    CMLDriverPMOSState :=
  { s with arrayBox := some box, size := some sz }

/-- `CMLDriverPMOS.output_tracks` property (tx_cml.py lines 467-469). -/
def cmlDriverOutputTracks (s : CMLDriverPMOSState) : Option (List ℚ) :=
  s.outputTracks

/-- C7: `output_tracks` is `None` for the fresh instance and after any
number of `draw_layout` calls: no method of the class assigns the
backing field. -/
theorem cmlDriver_outputTracks_none (calls : List ((ℚ × ℚ) × (ℕ × ℕ × ℕ))) :
    cmlDriverOutputTracks
      (calls.foldl (fun s c => cmlDriverDrawLayout c.1 c.2 s) cmlDriverInit) = none := by
  rw [cmlDriverOutputTracks]
  have h : ∀ (s : CMLDriverPMOSState) (cs : List ((ℚ × ℚ) × (ℕ × ℕ × ℕ))),
      (cs.foldl (fun s c => cmlDriverDrawLayout c.1 c.2 s) s).outputTracks = s.outputTracks := by
    intro s cs
    induction cs generalizing s with
    | nil => rfl
    | cons c cs ih =>
      rw [List.foldl_cons]
      exact ih _
  rw [h]
  rfl

/-- tx_cml.py line 368: the effective input space,
`input_space = max(input_space, hm_space_ref, hm_space)` (Python's
three-argument `max`). -/
def effectiveInputSpace (inputSpace hmSpaceRef hmSpace : ℚ) : ℚ :=
  max (max inputSpace hmSpaceRef) hmSpace

/-- tx_cml.py line 372: the gate track list `pg_tracks`, built with
the widened input space. -/
def cmlCorePgTracks (inputWidth inputSpace hmWidthRef hmSpaceRef hmSpace : ℚ) : List ℚ :=
  [inputWidth,
   effectiveInputSpace inputSpace hmSpaceRef hmSpace + hmWidthRef + hmSpace,
   inputWidth]

/-- tx_cml.py line 373: the drain/source track list `pds_tracks`,
built with the widened input space. -/
def cmlCorePdsTracks (inputSpace hmSpaceRef hmWidth hmSpace : ℚ) : List ℚ :=
  [effectiveInputSpace inputSpace hmSpaceRef hmSpace + hmWidth,
   2 * hmWidth + hmSpace + effectiveInputSpace inputSpace hmSpaceRef hmSpace,
   effectiveInputSpace inputSpace hmSpaceRef hmSpace + hmWidth]

/-- C8: the effective input space dominates the user-supplied
`input_space`, the reference-track space `hm_space_ref`, and the
output-track space `hm_space`. -/
theorem cmlCore_inputSpace_monotone (inputSpace hmSpaceRef hmSpace : ℚ) :
    inputSpace ≤ effectiveInputSpace inputSpace hmSpaceRef hmSpace ∧
    hmSpaceRef ≤ effectiveInputSpace inputSpace hmSpaceRef hmSpace ∧
    hmSpace ≤ effectiveInputSpace inputSpace hmSpaceRef hmSpace :=
  ⟨le_trans (le_max_left _ _) (le_max_left _ _),
   le_trans (le_max_right _ _) (le_max_left _ _),
   le_max_right _ _⟩

/-- `rxcore` (layout_scripts/serdes.py lines 140-204): returns the
schematic parameter dict and the template's reported `num_fingers`. -/
def rxcoreReturn {α : Type} (params : α) (numFingers : ℤ) : α × ℤ :=
  (params, numFingers)

/-- `rxcore_sch` (layout_scripts/serdes.py lines 207-213): the
arguments it hands to `dsn.design_specs`, namely
`fg_tot = 2 * tot_fg` together with `**sch_params` unchanged.
`α` is the opaque type of the schematic parameter dict. -/
def rxcoreSchCall {α : Type} (schParams : α) (totFg : ℤ) : ℤ × α :=
  (2 * totFg, schParams)

/-- C9: feeding `rxcore`'s returned `(params, num_fingers)` into
`rxcore_sch` calls `design_specs` with `fg_tot` exactly twice the
reported finger count, and the parameters pass through unchanged. -/
theorem rxcore_sch_fg_tot {α : Type} (params : α) (numFingers : ℤ) :
    rxcoreSchCall (rxcoreReturn params numFingers).1 (rxcoreReturn params numFingers).2 =
      (2 * numFingers, params) :=
  rfl

/-- `AmpBaseChain.draw_layout` (test_scripts/analogbase.py lines
158-162): when `master2.size` is set, instance `X2` is placed at
x-coordinate `(-x0 // xblk) * xblk`, with `x0` the right edge of `X1`
(`inst1.bound_box.right_unit`) and `xblk` the block width of
master2's top layer. -/
def ampBaseChainX2 (x0 xblk : ℤ) : ℤ :=
  ((-x0).fdiv xblk) * xblk

example : ampBaseChainX2 5 4 = -8 := by decide
example : ampBaseChainX2 8 4 = -8 := by decide
example : ampBaseChainX2 0 4 = 0 := by decide

/-- C10: the chosen x-coordinate is an exact multiple of `xblk` and,
for a non-negative right edge `x0`, is never positive, hence never to
the right of `X1`'s right edge. -/
theorem ampBaseChain_x2_loc (x0 xblk : ℤ) (hx : 0 ≤ x0) (hb : 0 < xblk) :
    xblk ∣ ampBaseChainX2 x0 xblk ∧ ampBaseChainX2 x0 xblk ≤ 0 ∧
    ampBaseChainX2 x0 xblk ≤ x0 := by
  have hq : (-x0).fdiv xblk ≤ 0 := by
    rw [Int.fdiv_eq_ediv _ (le_of_lt hb)]
    have h1 : (-x0) / xblk ≤ 0 / xblk := Int.ediv_le_ediv hb (by omega)
    rw [Int.zero_ediv] at h1
    exact h1
  have h0 : ampBaseChainX2 x0 xblk ≤ 0 := by
    rw [ampBaseChainX2]
    have := mul_le_mul_of_nonneg_right hq (le_of_lt hb)
    rw [zero_mul] at this
    exact this
  exact ⟨dvd_mul_left _ _, h0, le_trans h0 hx⟩

/-- Witness for C10 at `x0 = 5`, `xblk = 4`: X2 lands at `-8`. -/
theorem ampBaseChain_x2_loc_witness :
    0 ≤ (5:ℤ) ∧ 0 < (4:ℤ) ∧
      ((4:ℤ) ∣ ampBaseChainX2 5 4 ∧ ampBaseChainX2 5 4 ≤ 0 ∧ ampBaseChainX2 5 4 ≤ 5) :=
  ⟨by decide, by decide, ampBaseChain_x2_loc 5 4 (by decide) (by decide)⟩
